import Mathlib

/-!
Shallow embedding of the conversation-orchestration core of the `tool-chat`
repository (LangGraph-based RAG assistant), together with theorems settling
the frozen claims about its specification.

The embedding mirrors, definition by definition:
  * `src/logic/state.py`    — the `State` TypedDict and the `add_messages`
    reducer semantics used for the `messages`/`query` channels;
  * `src/logic/nodes.py`    — `llm_call_node`, `summarization_node`,
    `should_summarize`, `MAX_MESSAGES`;
  * `src/logic/graph.py`    — the conditional-edge wiring of
    `GraphManager.build_graph` (two independent branches from `llm_call`);
  * `src/logic/tools.py`    — `day_name_tool` (validation plus
    `calendar.weekday`, i.e. proleptic-Gregorian day-of-week arithmetic);
  * `src/logic/utils.py`    — `append_memory`;
  * `src/api/core/rate_limit.py` — `check_concurrent_limit` /
    `decrement_concurrent_count`;
  * `src/api/routes/v1/streamer.py` — `generate_chat_responses` and the
    endpoint's `event_generator` wrapper.

External effects (LLM calls, Redis, the graph event stream) are modelled as
explicit parameters: an LLM invocation outcome is an `Except` value, the
graph's event stream is the list of events the `async for` loop received
before it either completed or raised.
-/

/-- A structured tool-call request embedded in a model response
(`name` plus keyword arguments, modelled as a string-keyed association list
since the streamer only ever reads string-valued arguments). -/
structure ToolCall where
  name : String
  args : List (String × String)
deriving DecidableEq, Repr

/-- A LangChain message as the orchestration core uses it: an identity used
by the `add_messages` reducer, textual content, and the tool calls carried by
an AI message (empty for human/tool messages). -/
structure Msg where
  id : String
  content : String
  tool_calls : List ToolCall
deriving DecidableEq, Repr

/-- One entry of a `messages` delta returned by a node: either a regular
message (appended / upserted by id) or a `RemoveMessage` tombstone deleting
the referenced prior entry by id. -/
inductive MsgOp where
  | add (m : Msg)
  | remove (id : String)
deriving DecidableEq, Repr

/-- `src/logic/state.py` `State`: query, answer, messages, runs, summary.
`query` and `messages` are reduced with `add_messages`; the other fields are
plain last-write-wins channels. -/
structure State where
  query : List Msg
  answer : String
  messages : List Msg
  runs : Nat
  summary : String
deriving DecidableEq, Repr

/-- One step of langgraph's `add_messages` reducer: a regular message whose
id is already present replaces that entry in place, an unseen id is appended;
a `RemoveMessage` deletes the entry with the referenced id. -/
def applyMsgOp (msgs : List Msg) (op : MsgOp) : List Msg :=
  match op with
  | .add m =>
      if msgs.any (fun x => x.id == m.id) then
        msgs.map (fun x => if x.id == m.id then m else x)
      else
        msgs ++ [m]
  | .remove i => msgs.filter (fun x => x.id != i)

/-- langgraph's `add_messages` reducer applied to a whole node delta,
left to right. -/
def add_messages (msgs : List Msg) (ops : List MsgOp) : List Msg :=
  ops.foldl applyMsgOp msgs

/-- The node delta a LangGraph node returns: every key of `State`, with
`messages` (and `query`) as reducer deltas rather than absolute values. -/
structure StateDelta where
  query : List Msg
  answer : String
  messages : List MsgOp
  runs : Nat
  summary : String
deriving DecidableEq, Repr

/-! ## Date tool (`src/logic/tools.py`, `day_name_tool`) -/

/-- Gregorian leap-year predicate (as used by Python's `calendar` /
`datetime` modules). -/
def isLeapYear (y : Nat) : Bool :=
  y % 4 == 0 && (y % 100 != 0 || y % 400 == 0)

/-- Days in the months strictly before month `m` in a non-leap year
(`m` is 1-based). -/
def cumDaysBeforeMonth (m : Nat) : Nat :=
  match m with
  | 1 => 0
  | 2 => 31
  | 3 => 59
  | 4 => 90
  | 5 => 120
  | 6 => 151
  | 7 => 181
  | 8 => 212
  | 9 => 243
  | 10 => 273
  | 11 => 304
  | _ => 334

/-- Days strictly before January 1 of year `y` in the proleptic Gregorian
calendar (`datetime.date.toordinal` arithmetic). -/
def daysBeforeYear (y : Nat) : Nat :=
  (y - 1) * 365 + (y - 1) / 4 - (y - 1) / 100 + (y - 1) / 400

/-- `datetime.date(y, m, d).toordinal()`: day number with 0001-01-01 = 1. -/
def dateToOrdinal (y m d : Nat) : Nat :=
  daysBeforeYear y + cumDaysBeforeMonth m
    + (if 2 < m && isLeapYear y then 1 else 0) + d

/-- `calendar.weekday(y, m, d)`: 0 = Monday … 6 = Sunday.
0001-01-01 (ordinal 1) was a Monday. -/
def calendarWeekday (y m d : Nat) : Nat :=
  (dateToOrdinal y m d + 6) % 7

/-- `calendar.day_name[w]` for the zero-indexed weekday `w`. -/
def pythonDayName (w : Nat) : String :=
  match w with
  | 0 => "Monday"
  | 1 => "Tuesday"
  | 2 => "Wednesday"
  | 3 => "Thursday"
  | 4 => "Friday"
  | 5 => "Saturday"
  | _ => "Sunday"

/-- `src/logic/tools.py` `day_name_tool`: validates year/month/day ranges in
source order (each failed check raises a `ValueError`, modelled as
`Except.error` with the source's message) and otherwise returns
`calendar.day_name[calendar.weekday(year, month, day)]`. -/
def day_name_tool (year month day : Int) : Except String String :=
  if year < 1 then
    .error "Year must be a positive integer."
  else if month < 1 || 12 < month then
    .error "Month must be between 1 and 12."
  else if day < 1 || 31 < day then
    .error "Day must be between 1 and 31."
  else
    .ok (pythonDayName (calendarWeekday year.toNat month.toNat day.toNat))

/-! ## Graph routing (`src/logic/graph.py` `build_graph`,
`src/logic/nodes.py` `should_summarize`) -/

/-- `src/logic/nodes.py`: `MAX_MESSAGES = 10`. -/
def MAX_MESSAGES : Nat := 10

/-- The values a conditional-edge router can return in this graph:
a node name or langgraph's `END` sentinel. -/
inductive Route where
  | tools
  | summarize
  | END
deriving DecidableEq, Repr

/-- The routable nodes of the compiled graph. -/
inductive GraphNode where
  | llm_call
  | tools
  | summarize
deriving DecidableEq, Repr

/-- langgraph's prebuilt `tools_condition`: route to `"tools"` iff the last
message of the state carries at least one tool call, else `END`. -/
def tools_condition (s : State) : Route :=
  match s.messages.getLast? with
  | some m => if m.tool_calls.isEmpty then .END else .tools
  | none => .END

/-- `src/logic/nodes.py` `should_summarize`: route to `"summarize"` iff
`len(messages) > MAX_MESSAGES`, else `END`. -/
def should_summarize (s : State) : Route :=
  if MAX_MESSAGES < s.messages.length then .summarize else .END

/-- The set of nodes scheduled after `llm_call`, per
`GraphManager.build_graph`: the graph registers two independent conditional
edges from `llm_call` (`tools_condition` and `should_summarize`); at each
superstep langgraph evaluates every branch and schedules the union of the
returned node names, `END` contributing nothing (the run terminates iff the
union is empty). -/
def llm_call_targets (s : State) : List GraphNode :=
  (match tools_condition s with
   | .tools => [GraphNode.tools]
   | _ => []) ++
  (match should_summarize s with
   | .summarize => [GraphNode.summarize]
   | _ => [])

/-- An AI message requesting one search tool call. -/
def aiSearchMsg : Msg :=
  { id := "ai", content := "",
    tool_calls := [{ name := "search_tool", args := [("query", "q")] }] }

/-- A plain history message with the given numeric id. -/
def plainMsg (i : Nat) : Msg :=
  { id := toString i, content := "m", tool_calls := [] }

/-- A state with 11 messages (> MAX_MESSAGES) whose last message requests a
tool call. -/
def c1State : State :=
  { query := [], answer := "",
    messages := (List.range 10).map plainMsg ++ [aiSearchMsg],
    runs := 1, summary := "" }


/-! ## Decision/Generation node (`src/logic/nodes.py` `llm_call_node`) -/

/-- The exception kinds a model invocation can raise; the Decision node's
`except Exception` clause does not inspect the kind. -/
inductive LLMErr where
  | toolSchema
  | network
  | auth
  | other
deriving DecidableEq, Repr

/-- The entry Python places in the messages delta when `query` is empty:
`state.get("query", "")[-1] if state.get("query", "") else ""` evaluates to
the raw empty string. -/
def emptyQueryMsg : Msg :=
  { id := "", content := "", tool_calls := [] }

/-- The state `llm_call_node` returns once it holds a model `response`:
`answer` is `response.content`, the messages delta is the consumed query
(the last entry of `query`) followed by the raw response, and `query`,
`runs`, `summary` are passed through. -/
def llm_call_delta (s : State) (response : Msg) : StateDelta :=
  { query := s.query
    answer := response.content
    messages :=
      [MsgOp.add (match s.query.getLast? with
                  | some q => q
                  | none => emptyQueryMsg),
       MsgOp.add response]
    runs := s.runs
    summary := s.summary }

/-- `src/logic/nodes.py` `llm_call_node`, with the two possible model
invocations as parameters: `withToolsResult` is the outcome of the
tool-augmented request, `fallbackResult` the outcome of the tool-free
request. The source wraps the tool-augmented request in
`try ... except Exception`, so any failure of it — regardless of kind —
runs the tool-free fallback exactly once; a failure of the fallback
propagates (to the node's retry policy). -/
def llm_call_node (s : State)
    (withToolsResult fallbackResult : Except LLMErr Msg) :
    Except LLMErr StateDelta :=
  match withToolsResult with
  | .ok r => .ok (llm_call_delta s r)
  | .error _ =>
      match fallbackResult with
      | .ok r => .ok (llm_call_delta s r)
      | .error e => .error e

/-- A one-pending-query state for exercising `llm_call_node`. -/
def c8State : State :=
  { query := [{ id := "q1", content := "hello", tool_calls := [] }],
    answer := "", messages := [], runs := 0, summary := "sum0" }

/-- A model response carrying both text and a tool call. -/
def c8Resp : Msg :=
  { id := "r1", content := "hi",
    tool_calls := [{ name := "search_tool", args := [("query", "x")] }] }

/-! ## Summarization node (`src/logic/nodes.py` `summarization_node`) -/

/-- `src/logic/nodes.py` `summarization_node`, with the summarization model
invocation as a parameter (`llmResult`). On success the node returns a
messages delta of `RemoveMessage` tombstones for `state["messages"][:-2]`
(every message except the most recent two) and the model text as the new
`summary`; on failure it returns an empty messages delta and the prior
summary, passing every other field through unchanged. -/
def summarization_node (s : State) (llmResult : Except Unit String) :
    StateDelta :=
  match llmResult with
  | .error _ =>
      { query := s.query, answer := s.answer, messages := [],
        runs := s.runs, summary := s.summary }
  | .ok respContent =>
      { query := s.query, answer := s.answer,
        messages := (s.messages.take (s.messages.length - 2)).map
          (fun m => MsgOp.remove m.id),
        runs := s.runs, summary := respContent }

/-- A three-message state for exercising `summarization_node`. -/
def c3State : State :=
  { query := [], answer := "a",
    messages := [plainMsg 1, plainMsg 2, plainMsg 3],
    runs := 2, summary := "old" }

/-! ## Admission control (`src/api/core/rate_limit.py`) -/

/-- Outcome of `check_concurrent_limit` as the caller observes it: the
request proceeds to streaming, or a 429 "Too many concurrent streams"
`HTTPException` reaches the caller. -/
inductive AdmitResult where
  | admitted
  | rejected429
deriving DecidableEq, Repr

/-- The two concurrency counters: the Redis key `CONCURRENT_STREAM_KEY`
(`redisCount`) and the module-level in-process fallback
`_concurrent_counter` (`memCount`). -/
structure LimiterState where
  redisCount : Int
  memCount : Int
deriving DecidableEq, Repr

/-- `src/api/core/rate_limit.py` `check_concurrent_limit`, with Redis
availability as a flag: an unavailable Redis makes `redis_client.incr`
raise, landing in the in-memory fallback of the bare `except Exception`.
On the Redis path an over-cap count first decrements the key back and then
raises the 429 `HTTPException` — which, being raised inside the `try`, is
itself caught by the same `except Exception` clause and also falls through
to the in-memory fallback. -/
def check_concurrent_limit (redisAvailable : Bool) (st : LimiterState)
    (maxConcurrent : Int) : AdmitResult × LimiterState :=
  if redisAvailable then
    let current := st.redisCount + 1
    if maxConcurrent < current then
      let st1 : LimiterState := { st with redisCount := current - 1 }
      let m := st1.memCount + 1
      if maxConcurrent < m then
        (.rejected429, { st1 with memCount := m - 1 })
      else
        (.admitted, { st1 with memCount := m })
    else
      (.admitted, { st with redisCount := current })
  else
    let m := st.memCount + 1
    if maxConcurrent < m then
      (.rejected429, { st with memCount := m - 1 })
    else
      (.admitted, { st with memCount := m })

/-- `src/api/core/rate_limit.py` `decrement_concurrent_count`: the Redis
path decrements the key (no floor); the in-memory fallback clamps the
counter at 0. -/
def decrement_concurrent_count (redisAvailable : Bool) (st : LimiterState) :
    LimiterState :=
  if redisAvailable then
    { st with redisCount := st.redisCount - 1 }
  else
    { st with memCount := max 0 (st.memCount - 1) }

/-! ## Streaming bridge (`src/api/routes/v1/streamer.py`) -/

/-- The SSE events `generate_chat_responses` yields (`Events` in
`src/schemas/types.py`): `checkpoint`, `content`, `search_start`,
`search_result`, `date_result`, `end` (`stream_end` here). -/
inductive SSEEvent where
  | checkpoint (checkpoint_id : String)
  | content (content : String)
  | search_start (query : String)
  | search_result (urls : List String)
  | date_result (result : String)
  | stream_end
deriving DecidableEq, Repr

/-- The `astream_events` events the bridge's `async for` loop inspects:
`on_chat_model_stream` (with the emitting graph node and chunk text),
`on_chat_model_end` (with the response's tool calls), `on_tool_end` (with
the tool name, the `results` array of a dict-shaped output — each entry's
optional `url` field — or `none` when the output is not such a dict, and
the output's text content), and any other event type. -/
inductive GraphEvent where
  | chatModelStream (langgraphNode : String) (chunkContent : String)
  | chatModelEnd (toolCalls : List ToolCall)
  | toolEnd (name : String) (dictResults : Option (List (Option String)))
      (outputContent : String)
  | otherEvent (eventType : String)
deriving DecidableEq, Repr

/-- `call["args"].get("query", "")` on a tool call's argument dict. -/
def getQueryArg (args : List (String × String)) : String :=
  match args.find? (fun p => p.1 == "query") with
  | some p => p.2
  | none => ""

/-- The SSE events one graph event makes `generate_chat_responses` yield:
a chunk from the `llm_call` node yields `content`; a model completion whose
tool calls include at least one `search_tool` call yields `search_start`
with the first such call's query; a `tavily_search` completion yields
`search_result` with the URLs extracted from its `results` (omitted
entirely when no URLs were found); a `date_and_time_tool` completion yields
`date_result` with the output text; everything else yields nothing. -/
def processGraphEvent (e : GraphEvent) : List SSEEvent :=
  match e with
  | .chatModelStream node c =>
      if node == "llm_call" then [SSEEvent.content c] else []
  | .chatModelEnd tcs =>
      match tcs.filter (fun c => c.name == "search_tool") with
      | [] => []
      | c :: _ => [SSEEvent.search_start (getQueryArg c.args)]
  | .toolEnd name dictResults outputContent =>
      if name == "tavily_search" then
        let urls := match dictResults with
                    | some rs => rs.filterMap id
                    | none => []
        if urls.isEmpty then [] else [SSEEvent.search_result urls]
      else if name == "date_and_time_tool" then
        [SSEEvent.date_result outputContent]
      else []
  | .otherEvent _ => []

/-- The observable outcome of one run of `generate_chat_responses` wrapped
by the endpoint's `event_generator`: the SSE events yielded and whether the
graph's event iteration raised (in which case the exception propagates out
of the generator). -/
structure StreamRun where
  emitted : List SSEEvent
  raised : Bool
deriving DecidableEq, Repr

/-- The `checkpoint` event yielded immediately for a brand-new conversation
(`newCheckpointId = some cid`); nothing for a resumed one. -/
def checkpointEvents (newCheckpointId : Option String) : List SSEEvent :=
  match newCheckpointId with
  | some cid => [SSEEvent.checkpoint cid]
  | none => []

/-- `src/api/routes/v1/streamer.py` `generate_chat_responses`: for a
brand-new conversation a `checkpoint` event is yielded first; the
`async for` loop then translates each graph event it receives; `runFails`
models the graph event stream raising after delivering `deliveredEvents` —
the exception propagates before the trailing `end` yield is reached; on
normal completion the single `end` event is yielded last. -/
def generate_chat_responses (newCheckpointId : Option String)
    (deliveredEvents : List GraphEvent) (runFails : Bool) : StreamRun :=
  let body := deliveredEvents.flatMap processGraphEvent
  if runFails then
    { emitted := checkpointEvents newCheckpointId ++ body, raised := true }
  else
    { emitted := checkpointEvents newCheckpointId ++ body
        ++ [SSEEvent.stream_end],
      raised := false }

/-- Scanner for "no `search_result` before a `search_start`": `started`
records whether a `search_start` has been emitted so far; a
`search_result` is only legal once `started` holds. -/
def noResultBeforeStartAux (started : Bool) : List SSEEvent → Bool
  | [] => true
  | e :: rest =>
      match e with
      | .search_start _ => noResultBeforeStartAux true rest
      | .search_result _ => started && noResultBeforeStartAux started rest
      | .checkpoint _ => noResultBeforeStartAux started rest
      | .content _ => noResultBeforeStartAux started rest
      | .date_result _ => noResultBeforeStartAux started rest
      | .stream_end => noResultBeforeStartAux started rest

/-- Every `search_result` in the list is preceded by an earlier
`search_start`. -/
def noResultBeforeStart (l : List SSEEvent) : Bool :=
  noResultBeforeStartAux false l

/-- Scanner for the graph-execution invariant that a `tavily_search`
`on_tool_end` only arrives after an `on_chat_model_end` whose response
requested a `search_tool` call (a tool finishes only after the model asked
for it). -/
def searchEndsFollowRequestsAux (requested : Bool) : List GraphEvent → Bool
  | [] => true
  | e :: rest =>
      match e with
      | .chatModelEnd tcs =>
          searchEndsFollowRequestsAux
            (requested
              || !(tcs.filter (fun c => c.name == "search_tool")).isEmpty)
            rest
      | .toolEnd name _ _ =>
          (name != "tavily_search" || requested)
            && searchEndsFollowRequestsAux requested rest
      | .chatModelStream _ _ => searchEndsFollowRequestsAux requested rest
      | .otherEvent _ => searchEndsFollowRequestsAux requested rest

/-- Every `tavily_search` completion in the stream follows a model
completion that requested a `search_tool` call. -/
def searchEndsFollowRequests (evs : List GraphEvent) : Bool :=
  searchEndsFollowRequestsAux false evs

/-- A concrete graph event stream for a search turn: the model requests a
search, the tool completes with one URL, then a content chunk streams. -/
def c2Events : List GraphEvent :=
  [GraphEvent.chatModelEnd
      [{ name := "search_tool", args := [("query", "w")] }],
   GraphEvent.toolEnd "tavily_search" (some [some "u1"]) "",
   GraphEvent.chatModelStream "llm_call" "hi"]

/-! ## Long-term-memory merge (`src/logic/utils.py` `append_memory`) -/

/-- A value a memory field can hold: Python `None`, a string scalar, a list
of strings, or a string-keyed dict — the shapes
`StructuredMemoryResponse.model_dump()` and previous merges produce. -/
inductive Val where
  | vnone
  | vstr (s : String)
  | vlist (xs : List String)
  | vdict (d : List (String × String))
deriving DecidableEq, Repr

/-- Python's skip test
`new_value is None or new_value == "" or new_value == []`
(note an empty dict is NOT skipped). -/
def isSkippedVal : Val → Bool
  | .vnone => true
  | .vstr s => s == ""
  | .vlist xs => xs.isEmpty
  | .vdict _ => false

/-- A Python dict modelled as an insertion-ordered association list; real
dicts have unique keys, carried as a hypothesis where a proof needs it. -/
abbrev Mem := List (String × Val)

/-- `d.get(k)`: the value at the first entry with key `k`, or `none`. -/
def dictGet {α : Type} : List (String × α) → String → Option α
  | [], _ => none
  | p :: rest, k => if p.1 == k then some p.2 else dictGet rest k

/-- `d[k] = v`: replace the entry in place when the key exists (keeping its
insertion position, as Python dict assignment does), else append. -/
def dictSet {α : Type} : List (String × α) → String → α → List (String × α)
  | [], k, v => [(k, v)]
  | p :: rest, k, v =>
      if p.1 == k then (k, v) :: rest else p :: dictSet rest k v

/-- `list(dict.fromkeys(xs))`: order-preserving de-duplication keeping the
first occurrence; `seen` accumulates the elements already emitted. -/
def dedupKeepFirstAux (seen : List String) : List String → List String
  | [] => []
  | x :: rest =>
      if x ∈ seen then dedupKeepFirstAux seen rest
      else x :: dedupKeepFirstAux (x :: seen) rest

/-- `list(dict.fromkeys(xs))` as used for
`result[key] = list(dict.fromkeys(combined))`. -/
def dedupKeepFirst (xs : List String) : List String :=
  dedupKeepFirstAux [] xs

/-- `{**a, **b}`: shallow dict merge — start from `a`, assign each entry of
`b` in iteration order. -/
def pyDictMerge (a b : List (String × String)) : List (String × String) :=
  b.foldl (fun acc p => dictSet acc p.1 p.2) a

/-- The typed branch of `append_memory` once an existing and a new value
are both present: a new list is concatenated onto the existing one and
de-duplicated, a new dict is shallow-merged over the existing one, any
other new value overwrites. `none` models the `TypeError` Python raises
when `existing_value + new_value` or `{**existing_value, **new_value}`
meets a shape-mismatched existing value. -/
def mergeVal (ev nv : Val) : Option Val :=
  match nv with
  | .vlist nxs =>
      match ev with
      | .vlist exs => some (.vlist (dedupKeepFirst (exs ++ nxs)))
      | _ => none
  | .vdict nd =>
      match ev with
      | .vdict ed => some (.vdict (pyDictMerge ed nd))
      | _ => none
  | _ => some nv

/-- One iteration of `append_memory`'s loop, for key `k` with new value
`nv`: skip empty values; `result.get(key) is None` (key absent, or a
stored `None`) means "just add it"; otherwise merge by type. -/
def memStep (result : Mem) (k : String) (nv : Val) : Option Mem :=
  if isSkippedVal nv then some result
  else
    match dictGet result k with
    | none => some (dictSet result k nv)
    | some ev =>
        if ev = Val.vnone then some (dictSet result k nv)
        else (mergeVal ev nv).map (fun v => dictSet result k v)

/-- `src/logic/utils.py` `append_memory`: fold the per-key step over the
new payload's entries in order, starting from a copy of the existing
record (`none` = a raised `TypeError`). -/
def append_memory (existing new : Mem) : Option Mem :=
  new.foldl (fun acc p => acc.bind (fun r => memStep r p.1 p.2)) (some existing)

/-- Well-formedness of a payload value: list fields duplicate-free and dict
fields with unique keys. The unique-keys part is automatic for real Python
dicts; the duplicate-free-list part is NOT — `StructuredMemoryResponse`'s
`list[str]` fields can repeat entries. -/
def ValWF : Val → Prop
  | .vlist xs => xs.Nodup
  | .vdict d => (d.map Prod.fst).Nodup
  | _ => True

instance : DecidablePred ValWF := fun v =>
  match v with
  | .vnone => isTrue trivial
  | .vstr _ => isTrue trivial
  | .vlist xs => inferInstanceAs (Decidable xs.Nodup)
  | .vdict d => inferInstanceAs (Decidable (d.map Prod.fst).Nodup)

/-- A payload whose repeated merge is not idempotent: one list field with a
duplicate entry, landing on an absent key. -/
def c9Payload : Mem := [("name", Val.vlist ["a", "a"])]

/-- A concrete existing record exercising all three merge modes. -/
def c9Existing : Mem :=
  [("name", Val.vlist ["a"]),
   ("meta", Val.vdict [("k", "v1")]),
   ("note", Val.vstr "x")]

/-- A concrete well-formed payload: a duplicate-free list, a dict, an
overwriting scalar, and a skipped empty list. -/
def c9New : Mem :=
  [("name", Val.vlist ["b", "a"]),
   ("meta", Val.vdict [("k", "v2"), ("j", "w")]),
   ("note", Val.vstr "y"),
   ("empty", Val.vlist [])]

/-- `append_memory c9Existing c9New`. -/
def c9Merged : Mem :=
  [("name", Val.vlist ["a", "b"]),
   ("meta", Val.vdict [("k", "v2"), ("j", "w")]),
   ("note", Val.vstr "y")]

/-! ## Theorems -/

/-- Claim C6: `day_name_tool (2025, 1, 1)` returns "Wednesday", and every
input with non-positive year, month outside 1–12, or day outside 1–31 is
rejected with a validation error rather than a weekday name. -/
theorem day_name_tool_correct :
    day_name_tool 2025 1 1 = .ok "Wednesday" ∧
      ∀ year month day : Int,
        (year < 1 ∨ month < 1 ∨ 12 < month ∨ day < 1 ∨ 31 < day) →
          ∃ msg : String, day_name_tool year month day = .error msg := by
  constructor
  · rfl
  · intro year month day h
    unfold day_name_tool
    rcases h with h | h | h | h | h
    · rw [if_pos h]
      exact ⟨_, rfl⟩
    · by_cases hy : year < 1
      · rw [if_pos hy]; exact ⟨_, rfl⟩
      · rw [if_neg hy, if_pos (by simp [h])]; exact ⟨_, rfl⟩
    · by_cases hy : year < 1
      · rw [if_pos hy]; exact ⟨_, rfl⟩
      · rw [if_neg hy, if_pos (by simp [h])]; exact ⟨_, rfl⟩
    · by_cases hy : year < 1
      · rw [if_pos hy]; exact ⟨_, rfl⟩
      · rw [if_neg hy]
        by_cases hm : (month < 1 || 12 < month : Bool)
        · rw [if_pos hm]; exact ⟨_, rfl⟩
        · rw [if_neg hm, if_pos (by simp [h])]; exact ⟨_, rfl⟩
    · by_cases hy : year < 1
      · rw [if_pos hy]; exact ⟨_, rfl⟩
      · rw [if_neg hy]
        by_cases hm : (month < 1 || 12 < month : Bool)
        · rw [if_pos hm]; exact ⟨_, rfl⟩
        · rw [if_neg hm, if_pos (by simp [h])]; exact ⟨_, rfl⟩

/-- Claim C6 witness: the theorem applied at the concrete invalid inputs
month = 13 and day = 0, and at the reference date (2025, 1, 1). -/
theorem day_name_tool_correct_witness :
    day_name_tool 2025 1 1 = .ok "Wednesday" ∧
      (∃ msg : String, day_name_tool 2025 13 1 = .error msg) ∧
      (∃ msg : String, day_name_tool 2025 1 0 = .error msg) :=
  ⟨day_name_tool_correct.1,
   day_name_tool_correct.2 2025 13 1 (by decide),
   day_name_tool_correct.2 2025 1 0 (by decide)⟩

/-- Claim C1 counterexample: on a state that both requests a tool call and
exceeds the length threshold, the compiled graph takes the
`llm_call → summarize` edge in the same superstep as `llm_call → tools`
(both conditional-edge branches fire and their targets are unioned), so
summarization is not deferred behind tool routing and the
"`summarize` iff no tool call and `len(messages) > MAX_MESSAGES`" rule fails
in the right-to-left direction. -/
theorem llm_call_routing_counterexample :
    tools_condition c1State = .tools ∧
      MAX_MESSAGES < c1State.messages.length ∧
      llm_call_targets c1State = [GraphNode.tools, GraphNode.summarize] := by
  decide

/-- Claim C1 (amended): the compiled graph takes `llm_call → summarize` iff
`len(messages) > MAX_MESSAGES`, independently of tool routing, and takes
`llm_call → tools` iff the last message requests a tool call; a state
satisfying both conditions is routed to both nodes in the same superstep. -/
theorem llm_call_routing_targets (s : State) :
    (GraphNode.summarize ∈ llm_call_targets s ↔
        MAX_MESSAGES < s.messages.length) ∧
      (GraphNode.tools ∈ llm_call_targets s ↔
        ∃ m, s.messages.getLast? = some m ∧ m.tool_calls ≠ []) := by
  have hsum : GraphNode.summarize ∈ llm_call_targets s ↔
      should_summarize s = .summarize := by
    unfold llm_call_targets
    cases htc : tools_condition s <;> cases hss : should_summarize s <;> simp
  have htools : GraphNode.tools ∈ llm_call_targets s ↔
      tools_condition s = .tools := by
    unfold llm_call_targets
    cases htc : tools_condition s <;> cases hss : should_summarize s <;> simp
  have hss_iff : should_summarize s = .summarize ↔
      MAX_MESSAGES < s.messages.length := by
    unfold should_summarize
    by_cases h : MAX_MESSAGES < s.messages.length <;> simp [h]
  have htc_iff : tools_condition s = .tools ↔
      ∃ m, s.messages.getLast? = some m ∧ m.tool_calls ≠ [] := by
    unfold tools_condition
    cases hm : s.messages.getLast? with
    | none => simp
    | some m =>
        show (if m.tool_calls.isEmpty = true then Route.END else Route.tools)
            = Route.tools ↔ ∃ m2, some m = some m2 ∧ m2.tool_calls ≠ []
        by_cases h : m.tool_calls.isEmpty
        · rw [if_pos h]
          rw [List.isEmpty_iff] at h
          simp [h]
        · rw [if_neg h]
          rw [List.isEmpty_iff] at h
          exact iff_of_true rfl ⟨m, rfl, h⟩
  exact ⟨hsum.trans hss_iff, htools.trans htc_iff⟩

/-- Filtering out an id that does not occur leaves the list unchanged. -/
theorem filter_ne_id_of_not_mem (rest : List Msg) (i : String)
    (h : i ∉ rest.map Msg.id) :
    rest.filter (fun x => x.id != i) = rest := by
  apply List.filter_eq_self.mpr
  intro x hx
  rw [bne_iff_ne]
  intro hxi
  exact h (hxi ▸ List.mem_map_of_mem Msg.id hx)

/-- Applying `RemoveMessage` tombstones for the first `k` messages of a
history with pairwise-distinct ids removes exactly those messages. -/
theorem add_messages_remove_take (msgs : List Msg) (k : Nat)
    (hids : (msgs.map Msg.id).Nodup) :
    add_messages msgs ((msgs.take k).map (fun m => MsgOp.remove m.id))
      = msgs.drop k := by
  induction msgs generalizing k with
  | nil => cases k <;> rfl
  | cons m rest ih =>
      cases k with
      | zero => rfl
      | succ k =>
          rw [List.map_cons, List.nodup_cons] at hids
          have hstep :
              applyMsgOp (m :: rest) (MsgOp.remove m.id) = rest := by
            show (m :: rest).filter (fun x => x.id != m.id) = rest
            rw [List.filter_cons_of_neg (by simp)]
            exact filter_ne_id_of_not_mem rest m.id hids.1
          show add_messages (m :: rest)
              (MsgOp.remove m.id :: (rest.take k).map (fun x => MsgOp.remove x.id))
            = rest.drop k
          unfold add_messages
          rw [List.foldl_cons, hstep]
          exact ih k hids.2

/-- Claim C3: for a state with n ≥ 2 messages (with the pairwise-distinct
ids langgraph maintains), a successful summarization pass whose model call
returned a non-empty digest emits removal entries for exactly the n − 2
oldest messages; after the `add_messages` reducer applies them exactly the
most recent 2 pre-existing messages survive, and the resulting `summary` is
non-empty. -/
theorem summarization_success_bounds (s : State) (resp : String)
    (h2 : 2 ≤ s.messages.length)
    (hids : (s.messages.map Msg.id).Nodup)
    (hresp : resp ≠ "") :
    (summarization_node s (.ok resp)).messages
        = (s.messages.take (s.messages.length - 2)).map
            (fun m => MsgOp.remove m.id)
      ∧ add_messages s.messages (summarization_node s (.ok resp)).messages
        = s.messages.drop (s.messages.length - 2)
      ∧ (add_messages s.messages
          (summarization_node s (.ok resp)).messages).length = 2
      ∧ (summarization_node s (.ok resp)).summary ≠ "" := by
  have hmsgs : (summarization_node s (.ok resp)).messages
      = (s.messages.take (s.messages.length - 2)).map
          (fun m => MsgOp.remove m.id) := rfl
  have happly := add_messages_remove_take s.messages
    (s.messages.length - 2) hids
  refine ⟨hmsgs, ?_, ?_, ?_⟩
  · rw [hmsgs]; exact happly
  · rw [hmsgs, happly, List.length_drop]
    omega
  · exact hresp

/-- Claim C3 witness: the theorem applied to a concrete three-message state
and digest "sum"; the delta removes exactly the oldest message and the two
most recent survive. -/
theorem summarization_success_bounds_witness :
    2 ≤ c3State.messages.length
      ∧ (c3State.messages.map Msg.id).Nodup
      ∧ ("sum" : String) ≠ ""
      ∧ (summarization_node c3State (.ok "sum")).messages
          = (c3State.messages.take (c3State.messages.length - 2)).map
              (fun m => MsgOp.remove m.id)
      ∧ add_messages c3State.messages
          (summarization_node c3State (.ok "sum")).messages
        = c3State.messages.drop (c3State.messages.length - 2)
      ∧ (add_messages c3State.messages
          (summarization_node c3State (.ok "sum")).messages).length = 2
      ∧ (summarization_node c3State (.ok "sum")).summary ≠ "" := by
  have h := summarization_success_bounds c3State "sum"
    (by decide) (by decide) (by decide)
  exact ⟨by decide, by decide, by decide, h.1, h.2.1, h.2.2.1, h.2.2.2⟩

/-- Claim C5: when the summarization model call fails, `summarization_node`
returns the prior summary unchanged and an empty messages delta, so the
reducer leaves the history untouched and no graph-run error results. -/
theorem summarization_failure_degrades (s : State) :
    (summarization_node s (.error ())).summary = s.summary
      ∧ (summarization_node s (.error ())).messages = []
      ∧ add_messages s.messages (summarization_node s (.error ())).messages
        = s.messages :=
  ⟨rfl, rfl, rfl⟩

/-- Claim C10: on both the success and the failure path,
`summarization_node` passes `query`, `answer` and `runs` through
unchanged — it only touches the messages delta and the summary. -/
theorem summarization_frame (s : State) (r : Except Unit String) :
    (summarization_node s r).query = s.query
      ∧ (summarization_node s r).answer = s.answer
      ∧ (summarization_node s r).runs = s.runs := by
  cases r <;> exact ⟨rfl, rfl, rfl⟩

/-- Claim C8: for a state with at least one pending query message, a
successful `llm_call_node` returns `answer` equal to the textual content of
the model response, a messages delta of the consumed query (the most recent
pending query message) followed by the raw model response with its embedded
tool calls, and the input summary unchanged. -/
theorem llm_call_node_output (s : State) (resp : Msg)
    (fb : Except LLMErr Msg) (h : s.query ≠ []) :
    llm_call_node s (.ok resp) fb
      = .ok { query := s.query, answer := resp.content,
              messages := [MsgOp.add (s.query.getLast h), MsgOp.add resp],
              runs := s.runs, summary := s.summary } := by
  show Except.ok (llm_call_delta s resp) = _
  unfold llm_call_delta
  rw [List.getLast?_eq_getLast s.query h]

/-- Claim C8 witness: the theorem applied to a concrete state with one
pending query and a response carrying text and a tool call. -/
theorem llm_call_node_output_witness :
    c8State.query ≠ []
      ∧ llm_call_node c8State (.ok c8Resp) (.error .other)
        = .ok { query := c8State.query, answer := "hi",
                messages := [MsgOp.add { id := "q1", content := "hello",
                                         tool_calls := [] },
                             MsgOp.add c8Resp],
                runs := 0, summary := "sum0" } :=
  ⟨by decide,
   llm_call_node_output c8State c8Resp (.error .other) (by decide)⟩

/-- Claim C4 counterexample: a network-kind failure of the tool-augmented
request — not a tool-schema failure — also triggers the tool-free fallback,
and a successful fallback masks it: the node returns the fallback response
instead of surfacing the network error to the retry policy. -/
theorem llm_call_fallback_counterexample :
    LLMErr.network ≠ LLMErr.toolSchema
      ∧ llm_call_node c8State (.error .network) (.ok c8Resp)
        = .ok (llm_call_delta c8State c8Resp)
      ∧ llm_call_node c8State (.error .network) (.ok c8Resp)
        ≠ .error LLMErr.network := by
  exact ⟨by decide, rfl, fun hc => Except.noConfusion hc⟩

/-- Claim C4 (amended): any failure of the tool-augmented model request,
regardless of its kind, triggers exactly one fallback to a tool-free
request — the node's result is then determined solely by the fallback
outcome (so a successful fallback masks the original error) — and only a
failure of the fallback request surfaces to the node's retry policy; a
successful tool-augmented request never consults the fallback. -/
theorem llm_call_fallback_behavior :
    (∀ (s : State) (r : Msg) (fb : Except LLMErr Msg),
        llm_call_node s (.ok r) fb = .ok (llm_call_delta s r))
      ∧ (∀ (s : State) (e : LLMErr) (r : Msg),
          llm_call_node s (.error e) (.ok r) = .ok (llm_call_delta s r))
      ∧ (∀ (s : State) (e e2 : LLMErr),
          llm_call_node s (.error e) (.error e2) = .error e2) :=
  ⟨fun _ _ _ => rfl, fun _ _ _ => rfl, fun _ _ _ => rfl⟩

/-- Claim C7 (code bug): with Redis reachable and its counter already at
the cap (here `MAX_CONCURRENT = 5`), the next request is ADMITTED instead
of rejected: the 429 `HTTPException` raised on the Redis path is swallowed
by the function's own bare `except Exception` (whose comment claims it
handles "Redis not available") and the request proceeds through the
in-memory fallback. The in-memory counter is left incremented while the
stream's exit path decrements the Redis key, so the accounting leaks on
both counters; a genuinely rejected request only happens when the in-memory
counter is also over the cap. -/
theorem check_concurrent_limit_over_cap_admits :
    check_concurrent_limit true { redisCount := 5, memCount := 0 } 5
        = (.admitted, { redisCount := 5, memCount := 1 })
      ∧ decrement_concurrent_count true { redisCount := 5, memCount := 1 }
        = { redisCount := 4, memCount := 1 }
      ∧ check_concurrent_limit false { redisCount := 0, memCount := 5 } 5
        = (.rejected429, { redisCount := 0, memCount := 5 }) := by
  decide

/-- With `started` already true, any tail is accepted by the
`search_result`-after-`search_start` scanner. -/
theorem noResultBeforeStartAux_true (l : List SSEEvent) :
    noResultBeforeStartAux true l = true := by
  induction l with
  | nil => rfl
  | cons e rest ih => cases e <;> simpa [noResultBeforeStartAux] using ih

/-- `processGraphEvent` never emits the `end` event. -/
theorem stream_end_not_in_processGraphEvent (e : GraphEvent) :
    SSEEvent.stream_end ∉ processGraphEvent e := by
  cases e <;> simp only [processGraphEvent] <;> (repeat' split) <;> simp

/-- Appending the trailing `end` event does not affect the
`search_result`-after-`search_start` scanner. -/
theorem noResultBeforeStartAux_concat_end (l : List SSEEvent) (b : Bool) :
    noResultBeforeStartAux b (l ++ [SSEEvent.stream_end])
      = noResultBeforeStartAux b l := by
  induction l generalizing b with
  | nil => rfl
  | cons e rest ih => cases e <;> simp [noResultBeforeStartAux, ih]

/-- Main ordering invariant: if every `tavily_search` completion in the
graph event stream follows a model completion that requested a search, then
the translated SSE stream never emits `search_result` before
`search_start`. -/
theorem noResultBeforeStartAux_flatMap (evs : List GraphEvent) (b : Bool)
    (h : searchEndsFollowRequestsAux b evs = true) :
    noResultBeforeStartAux b (evs.flatMap processGraphEvent) = true := by
  induction evs generalizing b with
  | nil => rfl
  | cons e rest ih =>
      rw [List.flatMap_cons]
      cases b with
      | true => exact noResultBeforeStartAux_true _
      | false =>
          cases e with
          | chatModelStream node c =>
              rw [searchEndsFollowRequestsAux] at h
              by_cases hnode : (node == "llm_call") = true
              · simp only [processGraphEvent, if_pos hnode]
                exact ih false h
              · simp only [processGraphEvent, if_neg hnode, List.nil_append]
                exact ih false h
          | chatModelEnd tcs =>
              rw [searchEndsFollowRequestsAux] at h
              cases hf : tcs.filter (fun c => c.name == "search_tool") with
              | nil =>
                  rw [hf] at h
                  simp only [List.isEmpty_nil, Bool.not_true, Bool.or_false,
                    Bool.false_or] at h
                  simp only [processGraphEvent, hf, List.nil_append]
                  exact ih false h
              | cons c cs =>
                  simp only [processGraphEvent, hf, List.cons_append,
                    List.nil_append]
                  exact noResultBeforeStartAux_true _
          | toolEnd name dr oc =>
              rw [searchEndsFollowRequestsAux] at h
              rw [Bool.or_false, Bool.and_eq_true] at h
              obtain ⟨hname, hrest⟩ := h
              have hne : (name == "tavily_search") = false := by
                rw [bne_iff_ne] at hname
                exact beq_eq_false_iff_ne.mpr hname
              simp only [processGraphEvent, hne, Bool.false_eq_true,
                if_false]
              by_cases hdate : (name == "date_and_time_tool") = true
              · simp only [if_pos hdate, List.cons_append, List.nil_append]
                exact ih false hrest
              · simp only [if_neg hdate, List.nil_append]
                exact ih false hrest
          | otherEvent t =>
              rw [searchEndsFollowRequestsAux] at h
              simp only [processGraphEvent, List.nil_append]
              exact ih false h

/-- The translated body of a stream never contains the `end` event. -/
theorem stream_end_not_in_flatMap (evs : List GraphEvent) :
    SSEEvent.stream_end ∉ evs.flatMap processGraphEvent := by
  intro hmem
  rw [List.mem_flatMap] at hmem
  obtain ⟨e, _, hin⟩ := hmem
  exact stream_end_not_in_processGraphEvent e hin

/-- Claim C2 counterexample: when the underlying graph run fails (`async
for` raises), no `end` event is emitted at all — the trailing `end` yield
is never reached and the exception propagates out of the generator — so
"`end` is emitted exactly once regardless of whether the graph run failed"
is false. -/
theorem generate_chat_responses_failure_no_end :
    (generate_chat_responses (some "cid") [] true).raised = true
      ∧ SSEEvent.stream_end
          ∉ (generate_chat_responses (some "cid") [] true).emitted := by
  decide

/-- Claim C2 (amended): whenever the graph's event iteration completes
without raising, exactly one `end` event is emitted and it is the final
event of the stream, regardless of whether any content was produced; and —
given the graph-execution invariant that a `tavily_search` completion only
arrives after the model requested a search — `search_result` is never
emitted before `search_start`. If the graph run raises, the exception
propagates and no `end` event is emitted. -/
theorem generate_chat_responses_protocol (cid : Option String)
    (evs : List GraphEvent)
    (h : searchEndsFollowRequests evs = true) :
    (generate_chat_responses cid evs false).emitted.getLast?
        = some SSEEvent.stream_end
      ∧ SSEEvent.stream_end
          ∉ (generate_chat_responses cid evs false).emitted.dropLast
      ∧ noResultBeforeStart
          ((generate_chat_responses cid evs false).emitted) = true
      ∧ (generate_chat_responses cid evs false).raised = false
      ∧ (generate_chat_responses cid evs true).raised = true
      ∧ SSEEvent.stream_end
          ∉ (generate_chat_responses cid evs true).emitted := by
  have hnotin : SSEEvent.stream_end
      ∉ checkpointEvents cid ++ evs.flatMap processGraphEvent := by
    intro hmem
    rw [List.mem_append] at hmem
    rcases hmem with hmem | hmem
    · cases cid with
      | none => exact absurd hmem (List.not_mem_nil _)
      | some c =>
          rw [show checkpointEvents (some c) = [SSEEvent.checkpoint c]
            from rfl, List.mem_singleton] at hmem
          exact SSEEvent.noConfusion hmem
    · exact stream_end_not_in_flatMap evs hmem
  have hemit : (generate_chat_responses cid evs false).emitted
      = (checkpointEvents cid ++ evs.flatMap processGraphEvent)
        ++ [SSEEvent.stream_end] := by
    simp [generate_chat_responses]
  have hemitF : (generate_chat_responses cid evs true).emitted
      = checkpointEvents cid ++ evs.flatMap processGraphEvent := by
    simp [generate_chat_responses]
  refine ⟨?_, ?_, ?_, ?_, ?_, ?_⟩
  · rw [hemit, List.getLast?_concat]
  · rw [hemit, List.dropLast_concat]
    exact hnotin
  · show noResultBeforeStart (generate_chat_responses cid evs false).emitted
      = true
    rw [hemit]
    unfold noResultBeforeStart
    rw [noResultBeforeStartAux_concat_end]
    cases cid with
    | none =>
        show noResultBeforeStartAux false
          ([] ++ evs.flatMap processGraphEvent) = true
        rw [List.nil_append]
        exact noResultBeforeStartAux_flatMap evs false h
    | some c =>
        show noResultBeforeStartAux false
          (SSEEvent.checkpoint c :: evs.flatMap processGraphEvent) = true
        show noResultBeforeStartAux false
          (evs.flatMap processGraphEvent) = true
        exact noResultBeforeStartAux_flatMap evs false h
  · simp [generate_chat_responses]
  · simp [generate_chat_responses]
  · rw [hemitF]
    exact hnotin

/-- Claim C2 witness: the amended theorem applied to a brand-new
conversation and a concrete search turn (model requests a search, the tool
returns one URL, then a chunk streams). -/
theorem generate_chat_responses_protocol_witness :
    searchEndsFollowRequests c2Events = true
      ∧ (generate_chat_responses (some "c") c2Events false).emitted.getLast?
        = some SSEEvent.stream_end
      ∧ SSEEvent.stream_end
          ∉ (generate_chat_responses (some "c") c2Events false).emitted.dropLast
      ∧ noResultBeforeStart
          ((generate_chat_responses (some "c") c2Events false).emitted)
        = true := by
  have h := generate_chat_responses_protocol (some "c") c2Events (by decide)
  exact ⟨by decide, h.1, h.2.1, h.2.2.1⟩

/-- Looking up the key just set returns the value just set. -/
theorem dictGet_dictSet_self {α : Type} :
    ∀ (d : List (String × α)) (k : String) (v : α),
      dictGet (dictSet d k v) k = some v := by
  intro d
  induction d with
  | nil =>
      intro k v
      simp [dictSet, dictGet]
  | cons p rest ih =>
      intro k v
      by_cases hp : (p.1 == k) = true
      · rw [dictSet, if_pos hp, dictGet]
        simp
      · rw [dictSet, if_neg hp, dictGet, if_neg hp]
        exact ih k v

/-- Setting one key leaves lookups of other keys unchanged. -/
theorem dictGet_dictSet_other {α : Type} :
    ∀ (d : List (String × α)) (k k2 : String) (v : α), k2 ≠ k →
      dictGet (dictSet d k v) k2 = dictGet d k2 := by
  intro d
  induction d with
  | nil =>
      intro k k2 v hne
      have h1 : (k == k2) = false :=
        beq_eq_false_iff_ne.mpr (fun he => hne he.symm)
      simp [dictSet, dictGet, h1]
  | cons p rest ih =>
      intro k k2 v hne
      by_cases hp : (p.1 == k) = true
      · rw [dictSet, if_pos hp, dictGet, dictGet]
        have hk : p.1 = k := eq_of_beq hp
        have h1 : (k == k2) = false :=
          beq_eq_false_iff_ne.mpr (fun he => hne he.symm)
        have h2 : (p.1 == k2) = false := by rw [hk]; exact h1
        rw [h1, h2]
        simp
      · rw [dictSet, if_neg hp, dictGet, dictGet]
        by_cases hp2 : (p.1 == k2) = true
        · rw [if_pos hp2, if_pos hp2]
        · rw [if_neg hp2, if_neg hp2]
          exact ih k k2 v hne

/-- Setting a key to the value it already holds is the identity. -/
theorem dictSet_eq_self {α : Type} :
    ∀ (d : List (String × α)) (k : String) (v : α),
      dictGet d k = some v → dictSet d k v = d := by
  intro d
  induction d with
  | nil =>
      intro k v h
      exact Option.noConfusion h
  | cons p rest ih =>
      intro k v h
      rw [dictGet] at h
      by_cases hp : (p.1 == k) = true
      · rw [if_pos hp] at h
        injection h with h2
        have hk : p.1 = k := eq_of_beq hp
        subst hk
        subst h2
        rw [dictSet, if_pos (by simp)]
      · rw [if_neg hp] at h
        rw [dictSet, if_neg hp, ih k v h]

/-- Membership in the de-duplicated list: present in the input and not
already seen. -/
theorem mem_dedupKeepFirstAux :
    ∀ (l seen : List String) (x : String),
      x ∈ dedupKeepFirstAux seen l ↔ x ∈ l ∧ x ∉ seen := by
  intro l
  induction l with
  | nil =>
      intro seen x
      simp [dedupKeepFirstAux]
  | cons y rest ih =>
      intro seen x
      rw [dedupKeepFirstAux]
      by_cases hy : y ∈ seen
      · rw [if_pos hy, ih, List.mem_cons]
        by_cases hxy : x = y
        · subst hxy; simp [hy]
        · simp [hxy]
      · rw [if_neg hy, List.mem_cons, ih, List.mem_cons]
        by_cases hxy : x = y
        · subst hxy; simp [hy]
        · simp [hxy, List.mem_cons]

/-- The de-duplicated list has no duplicates. -/
theorem nodup_dedupKeepFirstAux :
    ∀ (l seen : List String), (dedupKeepFirstAux seen l).Nodup := by
  intro l
  induction l with
  | nil => intro seen; exact List.nodup_nil
  | cons y rest ih =>
      intro seen
      rw [dedupKeepFirstAux]
      by_cases hy : y ∈ seen
      · rw [if_pos hy]; exact ih seen
      · rw [if_neg hy]
        refine List.nodup_cons.mpr ⟨?_, ih (y :: seen)⟩
        rw [mem_dedupKeepFirstAux]
        rintro ⟨-, hns⟩
        exact hns (List.mem_cons_self y seen)

/-- De-duplicating an already duplicate-free list disjoint from `seen` is
the identity. -/
theorem dedupKeepFirstAux_eq_self :
    ∀ (l seen : List String), l.Nodup → (∀ x ∈ l, x ∉ seen) →
      dedupKeepFirstAux seen l = l := by
  intro l
  induction l with
  | nil => intro seen _ _; rfl
  | cons y rest ih =>
      intro seen hnd hdisj
      rw [dedupKeepFirstAux, if_neg (hdisj y (List.mem_cons_self y rest))]
      congr 1
      refine ih (y :: seen) (List.nodup_cons.mp hnd).2 ?_
      intro x hx
      rw [List.mem_cons]
      rintro (rfl | hs)
      · exact (List.nodup_cons.mp hnd).1 hx
      · exact hdisj x (List.mem_cons_of_mem y hx) hs

/-- De-duplication of a list wholly contained in `seen` is empty. -/
theorem dedupKeepFirstAux_eq_nil :
    ∀ (b seen : List String), (∀ x ∈ b, x ∈ seen) →
      dedupKeepFirstAux seen b = [] := by
  intro b
  induction b with
  | nil => intro seen _; rfl
  | cons z zs ih =>
      intro seen h
      rw [dedupKeepFirstAux, if_pos (h z (List.mem_cons_self z zs))]
      exact ih seen (fun x hx => h x (List.mem_cons_of_mem z hx))

/-- Appending elements that are all already in `seen` or in the prefix does
not change the de-duplication. -/
theorem dedupKeepFirstAux_append_subsumed (b : List String) :
    ∀ (l seen : List String), (∀ x ∈ b, x ∈ seen ∨ x ∈ l) →
      dedupKeepFirstAux seen (l ++ b) = dedupKeepFirstAux seen l := by
  intro l
  induction l with
  | nil =>
      intro seen h
      rw [List.nil_append]
      exact dedupKeepFirstAux_eq_nil b seen
        (fun x hx => (h x hx).resolve_right (List.not_mem_nil x))
  | cons y l2 ih =>
      intro seen h
      rw [List.cons_append, dedupKeepFirstAux, dedupKeepFirstAux]
      by_cases hy : y ∈ seen
      · rw [if_pos hy, if_pos hy]
        refine ih seen (fun x hx => ?_)
        rcases h x hx with hs | hs
        · exact Or.inl hs
        · rcases List.mem_cons.mp hs with rfl | hl
          · exact Or.inl hy
          · exact Or.inr hl
      · rw [if_neg hy, if_neg hy]
        congr 1
        refine ih (y :: seen) (fun x hx => ?_)
        rcases h x hx with hs | hs
        · exact Or.inl (List.mem_cons_of_mem y hs)
        · rcases List.mem_cons.mp hs with rfl | hl
          · exact Or.inl (List.mem_cons_self x seen)
          · exact Or.inr hl

/-- Re-merging the same suffix into an already de-duplicated concatenation
changes nothing: `dedup (dedup (a ++ b) ++ b) = dedup (a ++ b)`. -/
theorem dedupKeepFirst_idem_append (a b : List String) :
    dedupKeepFirst (dedupKeepFirst (a ++ b) ++ b) = dedupKeepFirst (a ++ b) := by
  have hsub : ∀ x ∈ b, x ∈ ([] : List String) ∨ x ∈ dedupKeepFirst (a ++ b) := by
    intro x hx
    right
    rw [dedupKeepFirst, mem_dedupKeepFirstAux]
    exact ⟨List.mem_append_right a hx, List.not_mem_nil x⟩
  rw [dedupKeepFirst,
    dedupKeepFirstAux_append_subsumed b (dedupKeepFirst (a ++ b)) [] hsub]
  exact dedupKeepFirstAux_eq_self (dedupKeepFirst (a ++ b)) []
    (nodup_dedupKeepFirstAux (a ++ b) []) (fun x _ => List.not_mem_nil x)

/-- `dedup (xs ++ xs) = xs` for duplicate-free `xs`. -/
theorem dedupKeepFirst_self_append (xs : List String) (h : xs.Nodup) :
    dedupKeepFirst (xs ++ xs) = xs := by
  rw [dedupKeepFirst,
    dedupKeepFirstAux_append_subsumed xs xs [] (fun x hx => Or.inr hx)]
  exact dedupKeepFirstAux_eq_self xs [] h (fun x _ => List.not_mem_nil x)

/-- Merging a dict whose keys are all absent from `b` does not change
lookups of those keys. -/
theorem dictGet_pyDictMerge_not_mem :
    ∀ (b a : List (String × String)) (k : String),
      k ∉ b.map Prod.fst → dictGet (pyDictMerge a b) k = dictGet a k := by
  intro b
  induction b with
  | nil => intro a k _; rfl
  | cons q b2 ih =>
      intro a k h
      rw [List.map_cons, List.mem_cons] at h
      push_neg at h
      show dictGet (pyDictMerge (dictSet a q.1 q.2) b2) k = dictGet a k
      rw [ih (dictSet a q.1 q.2) k h.2]
      exact dictGet_dictSet_other a q.1 k q.2 h.1

/-- After `{**a, **b}` every key of a unique-keyed `b` maps to its `b`
value. -/
theorem dictGet_pyDictMerge_mem :
    ∀ (b a : List (String × String)), (b.map Prod.fst).Nodup →
      ∀ p ∈ b, dictGet (pyDictMerge a b) p.1 = some p.2 := by
  intro b
  induction b with
  | nil => intro a _ p hp; exact absurd hp (List.not_mem_nil p)
  | cons q b2 ih =>
      intro a hnd p hp
      rw [List.map_cons, List.nodup_cons] at hnd
      show dictGet (pyDictMerge (dictSet a q.1 q.2) b2) p.1 = some p.2
      rcases List.mem_cons.mp hp with rfl | hp2
      · rw [dictGet_pyDictMerge_not_mem b2 (dictSet a p.1 p.2) p.1 hnd.1]
        exact dictGet_dictSet_self a p.1 p.2
      · exact ih (dictSet a q.1 q.2) hnd.2 p hp2

/-- `{**a, **b}` is the identity when `a` already maps every key of `b` to
its `b` value. -/
theorem pyDictMerge_eq_self :
    ∀ (b a : List (String × String)),
      (∀ p ∈ b, dictGet a p.1 = some p.2) → pyDictMerge a b = a := by
  intro b
  induction b with
  | nil => intro a _; rfl
  | cons q b2 ih =>
      intro a h
      show pyDictMerge (dictSet a q.1 q.2) b2 = a
      rw [dictSet_eq_self a q.1 q.2 (h q (List.mem_cons_self q b2))]
      exact ih a (fun p hp => h p (List.mem_cons_of_mem q hp))

/-- In a unique-keyed dict, every entry is found by lookup of its key. -/
theorem dictGet_of_mem_nodup {α : Type} :
    ∀ (d : List (String × α)), (d.map Prod.fst).Nodup →
      ∀ p ∈ d, dictGet d p.1 = some p.2 := by
  intro d
  induction d with
  | nil => intro _ p hp; exact absurd hp (List.not_mem_nil p)
  | cons q rest ih =>
      intro hnd p hp
      rw [List.map_cons, List.nodup_cons] at hnd
      rcases List.mem_cons.mp hp with rfl | hp2
      · rw [dictGet]
        simp
      · rw [dictGet]
        have hne : (q.1 == p.1) = false := by
          rw [beq_eq_false_iff_ne]
          intro he
          exact hnd.1 (he ▸ List.mem_map_of_mem Prod.fst hp2)
        rw [hne]
        simp only [Bool.false_eq_true, if_false]
        exact ih hnd.2 p hp2

/-- A value produced by `mergeVal` is absorbed by a further merge of the
same payload value: `mergeVal mv nv = some mv` whenever
`mergeVal ev nv = some mv` and `nv` is well-formed. -/
theorem mergeVal_absorb (ev nv mv : Val) (hwf : ValWF nv)
    (h : mergeVal ev nv = some mv) : mergeVal mv nv = some mv := by
  cases nv with
  | vnone =>
      have h2 : Val.vnone = mv := by injection h
      subst h2
      rfl
  | vstr s =>
      have h2 : Val.vstr s = mv := by injection h
      subst h2
      rfl
  | vlist nxs =>
      cases ev with
      | vlist exs =>
          have h2 : Val.vlist (dedupKeepFirst (exs ++ nxs)) = mv := by
            injection h
          subst h2
          show some (Val.vlist
              (dedupKeepFirst (dedupKeepFirst (exs ++ nxs) ++ nxs)))
            = some (Val.vlist (dedupKeepFirst (exs ++ nxs)))
          rw [dedupKeepFirst_idem_append exs nxs]
      | vnone => exact Option.noConfusion h
      | vstr s => exact Option.noConfusion h
      | vdict d => exact Option.noConfusion h
  | vdict nd =>
      cases ev with
      | vdict ed =>
          have h2 : Val.vdict (pyDictMerge ed nd) = mv := by injection h
          subst h2
          show some (Val.vdict (pyDictMerge (pyDictMerge ed nd) nd))
            = some (Val.vdict (pyDictMerge ed nd))
          rw [pyDictMerge_eq_self nd (pyDictMerge ed nd)
            (dictGet_pyDictMerge_mem nd ed hwf)]
      | vnone => exact Option.noConfusion h
      | vstr s => exact Option.noConfusion h
      | vlist xs => exact Option.noConfusion h

/-- A well-formed non-skipped value merged with itself is unchanged. -/
theorem mergeVal_self (nv : Val) (hwf : ValWF nv) :
    mergeVal nv nv = some nv := by
  cases nv with
  | vnone => rfl
  | vstr s => rfl
  | vlist xs =>
      show some (Val.vlist (dedupKeepFirst (xs ++ xs))) = some (Val.vlist xs)
      rw [dedupKeepFirst_self_append xs hwf]
  | vdict d =>
      show some (Val.vdict (pyDictMerge d d)) = some (Val.vdict d)
      rw [pyDictMerge_eq_self d d (dictGet_of_mem_nodup d hwf)]

/-- `mergeVal` of a non-skipped payload value never produces `None`. -/
theorem mergeVal_ne_vnone (ev nv mv : Val)
    (hskip : isSkippedVal nv = false) (h : mergeVal ev nv = some mv) :
    mv ≠ Val.vnone := by
  cases nv with
  | vnone => exact absurd hskip (by simp [isSkippedVal])
  | vstr s =>
      have h2 : Val.vstr s = mv := by injection h
      subst h2
      exact fun hc => Val.noConfusion hc
  | vlist nxs =>
      cases ev with
      | vlist exs =>
          have h2 : Val.vlist (dedupKeepFirst (exs ++ nxs)) = mv := by
            injection h
          subst h2
          exact fun hc => Val.noConfusion hc
      | vnone => exact Option.noConfusion h
      | vstr s => exact Option.noConfusion h
      | vdict d => exact Option.noConfusion h
  | vdict nd =>
      cases ev with
      | vdict ed =>
          have h2 : Val.vdict (pyDictMerge ed nd) = mv := by injection h
          subst h2
          exact fun hc => Val.noConfusion hc
      | vnone => exact Option.noConfusion h
      | vstr s => exact Option.noConfusion h
      | vlist xs => exact Option.noConfusion h

/-- A record already holding the absorbed merge value at `k` is a fixpoint
of `memStep`. -/
theorem memStep_fix (r2 : Mem) (k : String) (nv mv : Val)
    (hskip : isSkippedVal nv = false) (hmv : mv ≠ Val.vnone)
    (hget : dictGet r2 k = some mv) (hmerge : mergeVal mv nv = some mv) :
    memStep r2 k nv = some r2 := by
  unfold memStep
  rw [if_neg (by rw [hskip]; exact Bool.false_ne_true), hget]
  show (if mv = Val.vnone then some (dictSet r2 k nv)
        else Option.map (fun v => dictSet r2 k v) (mergeVal mv nv)) = some r2
  rw [if_neg hmv, hmerge]
  show some (dictSet r2 k mv) = some r2
  rw [dictSet_eq_self r2 k mv hget]

/-- Applying the same payload entry again right after a successful
`memStep` is the identity (requires a well-formed payload value). -/
theorem memStep_absorb (result r2 : Mem) (k : String) (nv : Val)
    (hwf : ValWF nv) (h : memStep result k nv = some r2) :
    memStep r2 k nv = some r2 := by
  unfold memStep at h
  by_cases hskip : isSkippedVal nv = true
  · rw [if_pos hskip] at h
    have h2 : result = r2 := by injection h
    subst h2
    unfold memStep
    rw [if_pos hskip]
  · rw [if_neg hskip] at h
    rw [Bool.not_eq_true] at hskip
    have hnv : nv ≠ Val.vnone := by
      intro he
      subst he
      simp [isSkippedVal] at hskip
    cases hget : dictGet result k with
    | none =>
        rw [hget] at h
        have h2 : dictSet result k nv = r2 := by injection h
        subst h2
        exact memStep_fix (dictSet result k nv) k nv nv hskip hnv
          (dictGet_dictSet_self result k nv) (mergeVal_self nv hwf)
    | some ev =>
        rw [hget] at h
        have h4 : (if ev = Val.vnone then some (dictSet result k nv)
            else Option.map (fun v => dictSet result k v) (mergeVal ev nv))
            = some r2 := h
        by_cases hev : ev = Val.vnone
        · rw [if_pos hev] at h4
          have h2 : dictSet result k nv = r2 := by injection h4
          subst h2
          exact memStep_fix (dictSet result k nv) k nv nv hskip hnv
            (dictGet_dictSet_self result k nv) (mergeVal_self nv hwf)
        · rw [if_neg hev] at h4
          cases hm : mergeVal ev nv with
          | none => rw [hm] at h4; exact Option.noConfusion h4
          | some mv =>
              rw [hm] at h4
              have h2 : dictSet result k mv = r2 := by injection h4
              subst h2
              exact memStep_fix (dictSet result k mv) k nv mv hskip
                (mergeVal_ne_vnone ev nv mv hskip hm)
                (dictGet_dictSet_self result k mv)
                (mergeVal_absorb ev nv mv hwf hm)

/-- A `memStep` fixpoint transfers to any record agreeing with it at the
stepped key. -/
theorem memStep_congr_get (r r2 : Mem) (k : String) (nv : Val)
    (heq : dictGet r k = dictGet r2 k)
    (h2 : memStep r2 k nv = some r2) :
    memStep r k nv = some r := by
  unfold memStep at h2 ⊢
  by_cases hskip : isSkippedVal nv = true
  · rw [if_pos hskip]
  · rw [if_neg hskip] at h2 ⊢
    rw [Bool.not_eq_true] at hskip
    cases hget2 : dictGet r2 k with
    | none =>
        rw [hget2] at h2
        have h3 : dictSet r2 k nv = r2 := by injection h2
        exfalso
        have hx : dictGet r2 k = some nv := by
          rw [← h3]; exact dictGet_dictSet_self r2 k nv
        rw [hget2] at hx
        exact Option.noConfusion hx
    | some ev =>
        rw [hget2] at h2
        rw [heq, hget2]
        have h4 : (if ev = Val.vnone then some (dictSet r2 k nv)
            else Option.map (fun v => dictSet r2 k v) (mergeVal ev nv))
            = some r2 := h2
        show (if ev = Val.vnone then some (dictSet r k nv)
              else Option.map (fun v => dictSet r k v) (mergeVal ev nv))
          = some r
        by_cases hev : ev = Val.vnone
        · rw [if_pos hev] at h4
          have h3 : dictSet r2 k nv = r2 := by injection h4
          exfalso
          have hx : dictGet r2 k = some nv := by
            rw [← h3]; exact dictGet_dictSet_self r2 k nv
          rw [hget2, Option.some.injEq] at hx
          subst hev
          rw [← hx] at hskip
          simp [isSkippedVal] at hskip
        · rw [if_neg hev] at h4 ⊢
          cases hm : mergeVal ev nv with
          | none => rw [hm] at h4; exact Option.noConfusion h4
          | some mv =>
              rw [hm] at h4
              have h3 : dictSet r2 k mv = r2 := by injection h4
              have hx : dictGet r2 k = some mv := by
                rw [← h3]; exact dictGet_dictSet_self r2 k mv
              rw [hget2, Option.some.injEq] at hx
              subst hx
              show some (dictSet r k ev) = some r
              rw [dictSet_eq_self r k ev (by rw [heq, hget2])]

/-- `memStep` at key `k` does not change lookups of other keys. -/
theorem memStep_get_other (result r2 : Mem) (k k2 : String) (nv : Val)
    (hne : k2 ≠ k) (h : memStep result k nv = some r2) :
    dictGet r2 k2 = dictGet result k2 := by
  unfold memStep at h
  by_cases hskip : isSkippedVal nv = true
  · rw [if_pos hskip] at h
    have h3 : result = r2 := by injection h
    subst h3
    rfl
  · rw [if_neg hskip] at h
    cases hget : dictGet result k with
    | none =>
        rw [hget] at h
        have h3 : dictSet result k nv = r2 := by injection h
        subst h3
        exact dictGet_dictSet_other result k k2 nv hne
    | some ev =>
        rw [hget] at h
        have h4 : (if ev = Val.vnone then some (dictSet result k nv)
            else Option.map (fun v => dictSet result k v) (mergeVal ev nv))
            = some r2 := h
        by_cases hev : ev = Val.vnone
        · rw [if_pos hev] at h4
          have h3 : dictSet result k nv = r2 := by injection h4
          subst h3
          exact dictGet_dictSet_other result k k2 nv hne
        · rw [if_neg hev] at h4
          cases hm : mergeVal ev nv with
          | none => rw [hm] at h4; exact Option.noConfusion h4
          | some mv =>
              rw [hm] at h4
              have h3 : dictSet result k mv = r2 := by injection h4
              subst h3
              exact dictGet_dictSet_other result k k2 mv hne

/-- A `TypeError` propagates through the rest of `append_memory`'s loop. -/
theorem append_memory_fold_none :
    ∀ (n : Mem),
      n.foldl (fun acc p => acc.bind (fun r => memStep r p.1 p.2)) none
        = none := by
  intro n
  induction n with
  | nil => rfl
  | cons p rest ih =>
      rw [List.foldl_cons]
      exact ih

/-- Unfolding one iteration of `append_memory`'s loop. -/
theorem append_memory_cons (e : Mem) (p : String × Val) (rest : Mem) :
    append_memory e (p :: rest)
      = (memStep e p.1 p.2).bind (fun e1 => append_memory e1 rest) := by
  unfold append_memory
  rw [List.foldl_cons]
  have h0 : (some e).bind (fun r => memStep r p.1 p.2) = memStep e p.1 p.2 :=
    rfl
  rw [h0]
  cases hm : memStep e p.1 p.2 with
  | none => exact append_memory_fold_none rest
  | some e1 => rfl

/-- The rest of the merge loop does not change lookups of keys it never
touches. -/
theorem append_memory_get_not_mem :
    ∀ (b a r : Mem) (k : String),
      append_memory a b = some r → k ∉ b.map Prod.fst →
        dictGet r k = dictGet a k := by
  intro b
  induction b with
  | nil =>
      intro a r k h _
      have h2 : a = r := by injection h
      subst h2
      rfl
  | cons p rest ih =>
      intro a r k h hk
      rw [List.map_cons, List.mem_cons] at hk
      push_neg at hk
      rw [append_memory_cons] at h
      cases hm : memStep a p.1 p.2 with
      | none => rw [hm] at h; exact Option.noConfusion h
      | some a1 =>
          rw [hm] at h
          have h2 : append_memory a1 rest = some r := h
          rw [ih a1 r k h2 hk.2]
          exact memStep_get_other a a1 p.1 k p.2 hk.1 hm

/-- Claim C9 counterexample: merging the payload
`{"name": ["a", "a"]}` (a list field with a duplicate entry, absent from
the existing record) twice does not equal merging it once — the first merge
stores the list verbatim, the second de-duplicates it. -/
theorem append_memory_not_idempotent :
    append_memory [] c9Payload = some [("name", Val.vlist ["a", "a"])]
      ∧ (append_memory [] c9Payload).bind
          (fun r => append_memory r c9Payload)
        = some [("name", Val.vlist ["a"])]
      ∧ (append_memory [] c9Payload).bind
          (fun r => append_memory r c9Payload)
        ≠ append_memory [] c9Payload := by
  refine ⟨rfl, rfl, ?_⟩
  intro hc
  rw [show (append_memory [] c9Payload).bind
        (fun r => append_memory r c9Payload)
      = some [("name", Val.vlist ["a"])] from rfl,
    show append_memory [] c9Payload
      = some [("name", Val.vlist ["a", "a"])] from rfl] at hc
  simp at hc

/-- Claim C9 (amended): `append_memory` merges list fields by
order-preserving de-duplicated concatenation, dict fields by shallow merge
and scalar fields by overwrite, and merging the same payload twice equals
merging it once PROVIDED every list field of the payload is duplicate-free
(and the payload is a real dict: unique keys, unique nested-dict keys);
a duplicate-carrying list field landing on an absent key breaks
idempotence. -/
theorem append_memory_idem :
    ∀ (n e r : Mem),
      (n.map Prod.fst).Nodup → (∀ p ∈ n, ValWF p.2) →
        append_memory e n = some r → append_memory r n = some r := by
  intro n
  induction n with
  | nil =>
      intro e r _ _ h
      have h2 : e = r := by injection h
      subst h2
      rfl
  | cons p rest ih =>
      intro e r hkeys hwf h
      rw [List.map_cons, List.nodup_cons] at hkeys
      rw [append_memory_cons] at h
      cases hm : memStep e p.1 p.2 with
      | none => rw [hm] at h; exact Option.noConfusion h
      | some e1 =>
          rw [hm] at h
          have hrest : append_memory e1 rest = some r := h
          have habs : memStep e1 p.1 p.2 = some e1 :=
            memStep_absorb e e1 p.1 p.2 (hwf p (List.mem_cons_self p rest))
              hm
          have hgr : dictGet r p.1 = dictGet e1 p.1 :=
            append_memory_get_not_mem rest e1 r p.1 hrest hkeys.1
          have hstep : memStep r p.1 p.2 = some r :=
            memStep_congr_get r e1 p.1 p.2 hgr habs
          rw [append_memory_cons, hstep]
          exact ih e1 r hkeys.2
            (fun q hq => hwf q (List.mem_cons_of_mem p hq)) hrest

/-- Claim C9 witness: the amended theorem applied to a concrete record and
a well-formed payload exercising the list, dict and scalar merge modes
(plus a skipped empty field). -/
theorem append_memory_idem_witness :
    (c9New.map Prod.fst).Nodup
      ∧ (∀ p ∈ c9New, ValWF p.2)
      ∧ append_memory c9Existing c9New = some c9Merged
      ∧ append_memory c9Merged c9New = some c9Merged := by
  refine ⟨by decide, by decide, by decide, ?_⟩
  exact append_memory_idem c9New c9Existing c9Merged
    (by decide) (by decide) (by decide)
